import Mathlib

/-
  Verification of the slow-redact path-addressing and selective-redaction engine
  (src/index.js) against its natural-language specification.

  The JavaScript code is shallowly embedded as pure Lean functions over a tree
  model `JSVal` of JavaScript values.  In-place mutation through object
  references is modelled by functions that return the updated tree: every
  assignment the source performs through a reference obtained by walking from a
  root is reflected as a functional update at the corresponding position
  (`setKeyExisting` / the rebuild performed by `walkUpdate`, `setValue` and
  `traverse`).  A JavaScript exception (the `in` operator applied to a
  non-object) is modelled with `Except Err`.  Calls to a caller-supplied censor
  function are recorded in an invocation log so that properties about how often
  and with which arguments the censor is invoked can be stated.

  Modelling boundaries (commented where relevant): prototype-chain membership
  for the `in` operator, array properties other than canonical indices (such as
  `length`), string index properties, and the exact ISO rendering of dates in
  `JSON.stringify` are not modelled; no theorem below depends on them.
-/

namespace SlowRedact

/-- A JavaScript value as observed by src/index.js: the scalar shapes it
distinguishes (`undefined`, `null`, booleans, numbers, strings, `Date`
instances carrying their timestamp) and the two container shapes (arrays and
plain objects with their own enumerable string-keyed fields, in insertion
order). Numbers are modelled as integers; no claim involves fractional
numbers. -/
inductive JSVal where
  | undefined
  | null
  | bool (b : Bool)
  | num (n : Int)
  | str (s : String)
  | date (t : Int)
  | arr (elems : List JSVal)
  | obj (fields : List (String × JSVal))
  deriving Repr

/-- The error raised by the JavaScript engine when src/index.js applies the
`in` operator to a non-object (src/index.js:82,103) or assigns a property on
`null`/`undefined` (src/index.js:245). -/
inductive Err where
  | typeError
  deriving Repr, DecidableEq

/-- Log of censor-function invocations: the `(value, path)` argument pairs, in
call order. -/
abbrev Log := List (JSVal × String)

/-- The configured censor: either a literal replacement value or a function
`(value, path) => replacement` (src/index.js:215, 238). -/
inductive Censor where
  | lit (v : JSVal)
  | cfun (f : JSVal → String → JSVal)

/-- `typeof v === 'object'` (true for `null`, `Date`, arrays and objects). -/
def typeofIsObject : JSVal → Bool
  | .null => true
  | .date _ => true
  | .arr _ => true
  | .obj _ => true
  | _ => false

/-- `v === null`. -/
def isNull : JSVal → Bool
  | .null => true
  | _ => false

/-- `v === null || v === undefined`. -/
def isNullOrUndefined : JSVal → Bool
  | .null => true
  | .undefined => true
  | _ => false

/-- A non-null object: a value the `in` operator and property assignment
accept, i.e. `typeof v === 'object' && v !== null`. -/
def isObjectLike : JSVal → Bool
  | .date _ => true
  | .arr _ => true
  | .obj _ => true
  | _ => false

/-- JavaScript truthiness, as used by `current && typeof current === 'object'`
(src/index.js:187). -/
def truthy : JSVal → Bool
  | .undefined => false
  | .null => false
  | .bool b => b
  | .num n => decide (n ≠ 0)
  | .str s => decide (s ≠ "")
  | .date _ => true
  | .arr _ => true
  | .obj _ => true

/-- The canonical array index denoted by a string key, if any: JavaScript
treats `a["2"]` as `a[2]` exactly when the key is the canonical decimal
rendering of the index. -/
def arrIdx? (s : String) : Option Nat :=
  match s.toNat? with
  | some n => if toString n = s then some n else none
  | none => none

/-- First-occurrence lookup in an object's field list. -/
def lookupFields : List (String × JSVal) → String → JSVal
  | [], _ => .undefined
  | (k', v) :: rest, k => if k' = k then v else lookupFields rest k

/-- List indexing returning `undefined` out of range. -/
def getIdx : List JSVal → Nat → JSVal
  | [], _ => .undefined
  | v :: _, 0 => v
  | _ :: rest, n + 1 => getIdx rest n

/-- Property read `v[k]`, as used by the walking loops of src/index.js.
Missing keys and reads on scalars yield `undefined`.  (Array properties other
than canonical indices, string index properties and inherited properties are
not modelled.) -/
def lookup : JSVal → String → JSVal
  | .obj fs, k => lookupFields fs k
  | .arr l, k =>
      match arrIdx? k with
      | some n => getIdx l n
      | none => .undefined
  | _, _ => .undefined

/-- Own-key membership, the effect of `k in v` on a non-null object.
(Prototype-chain membership is not modelled.) -/
def hasKeyB : JSVal → String → Bool
  | .obj fs, k => fs.any (fun kv => kv.1 = k)
  | .arr l, k =>
      match arrIdx? k with
      | some n => decide (n < l.length)
      | none => false
  | _, _ => false

/-- The `in` operator: `k in v` throws a TypeError unless `v` is a non-null
object (src/index.js:82,103). -/
def inOp (v : JSVal) (k : String) : Except Err Bool :=
  if isObjectLike v then .ok (hasKeyB v k) else .error .typeError

/-- Update of the first field with the given key, leaving the list unchanged
when the key is absent. -/
def setFields : List (String × JSVal) → String → JSVal → List (String × JSVal)
  | [], _, _ => []
  | (k', v) :: rest, k, x => if k' = k then (k, x) :: rest else (k', v) :: setFields rest k x

/-- In-range list update, identity out of range. -/
def setIdx : List JSVal → Nat → JSVal → List JSVal
  | [], _, _ => []
  | _ :: rest, 0, x => x :: rest
  | v :: rest, n + 1, x => v :: setIdx rest n x

/-- Functional image of the assignment `v[k] = x` at positions where the
source only ever overwrites an existing key/index (all rebuild sites below):
objects update the matching field, arrays update the index, any other value is
returned unchanged. -/
def setKeyExisting : JSVal → String → JSVal → JSVal
  | .obj fs, k, x => .obj (setFields fs k x)
  | .arr l, k, x =>
      match arrIdx? k with
      | some n => .arr (setIdx l n x)
      | none => .arr l
  | v, _, _ => v

mutual

/-- src/index.js:1-25 `deepClone`: scalars returned as-is, `Date` rebuilt from
its timestamp, arrays element-wise, objects field-wise over own enumerable
keys. -/
def deepClone : JSVal → JSVal
  | .undefined => .undefined
  | .null => .null
  | .bool b => .bool b
  | .num n => .num n
  | .str s => .str s
  | .date t => .date t
  | .arr l => .arr (deepCloneList l)
  | .obj fs => .obj (deepCloneFields fs)

/-- Element-wise clone of an array's elements (src/index.js:11). -/
def deepCloneList : List JSVal → List JSVal
  | [] => []
  | v :: rest => deepClone v :: deepCloneList rest

/-- Field-wise clone of an object's own fields (src/index.js:16-19). -/
def deepCloneFields : List (String × JSVal) → List (String × JSVal)
  | [] => []
  | (k, v) :: rest => (k, deepClone v) :: deepCloneFields rest

end

/-- One step of src/index.js:27-75 `parsePath`: the remaining characters, the
accumulated current segment, the `inBrackets` and `inQuotes` flags and the
pending quote character (`none` for the initial/reset empty `quoteChar`). -/
def parsePathGo : List Char → String → Bool → Bool → Option Char → List String
  | [], current, _, _, _ => if current ≠ "" then [current] else []
  | c :: rest, current, inBrackets, inQuotes, quoteChar =>
    if !inBrackets ∧ c = '.' then
      (if current ≠ "" then [current] else []) ++ parsePathGo rest "" inBrackets inQuotes quoteChar
    else if c = '[' then
      (if current ≠ "" then [current] else []) ++ parsePathGo rest "" true inQuotes quoteChar
    else if c = ']' ∧ inBrackets then
      (if current ≠ "" then [current] else []) ++ parsePathGo rest "" false false quoteChar
    else if (c = '"' ∨ c = '\'') ∧ inBrackets then
      if !inQuotes then
        parsePathGo rest current inBrackets true (some c)
      else if some c = quoteChar then
        parsePathGo rest current inBrackets false none
      else
        parsePathGo rest (current.push c) inBrackets inQuotes quoteChar
    else
      parsePathGo rest (current.push c) inBrackets inQuotes quoteChar

/-- src/index.js:27-75 `parsePath`: a single left-to-right scan splitting a
path string into segments. -/
def parsePath (path : String) : List String :=
  parsePathGo path.data "" false false none

/-- src/index.js:110-121 `getValue`: walk through the parts, returning
`undefined` as soon as the current value is `null` or `undefined`. -/
def getValue : JSVal → List String → JSVal
  | current, [] => current
  | current, p :: rest =>
      if isNullOrUndefined current then .undefined else getValue (lookup current p) rest

/-- The `*` last-key branch of `setValue` (src/index.js:92-101): arrays have
every element overwritten, non-null objects every own key; anything else
(including `Date`, with no own enumerable keys, and `null`/scalars, which fail
the guard) is untouched. -/
def setStar : JSVal → JSVal → JSVal
  | .arr l, value => .arr (l.map (fun _ => value))
  | .obj fs, value => .obj (fs.map (fun kv => (kv.1, value)))
  | v, _ => v

/-- src/index.js:77-108 `setValue`: walk all but the last part, requiring each
step to be an existing key holding a non-null object, then either overwrite an
existing last key, or, for a `*` last key, overwrite every element/field of
the current container.  The boolean is the source's return value; `Err` models
the TypeError the `in` operator raises on non-objects.  With no parts at all,
`parts[parts.length - 1]` is `undefined`, which the `in` operator coerces to
the key `"undefined"`. -/
def setValue (current : JSVal) (parts : List String) (value : JSVal) :
    Except Err (Bool × JSVal) :=
  match parts with
  | [] =>
      match inOp current "undefined" with
      | .error e => .error e
      | .ok b => .ok (true, if b then setKeyExisting current "undefined" value else current)
  | [lastKey] =>
      if lastKey = "*" then
        .ok (true, setStar current value)
      else
        match inOp current lastKey with
        | .error e => .error e
        | .ok b => .ok (true, if b then setKeyExisting current lastKey value else current)
  | key :: k2 :: rest =>
      match inOp current key with
      | .error e => .error e
      | .ok false => .ok (false, current)
      | .ok true =>
          let child := lookup current key
          if isObjectLike child then
            match setValue child (k2 :: rest) value with
            | .error e => .error e
            | .ok (applied, child') => .ok (applied, setKeyExisting current key child')
          else
            .ok (false, current)

/-- Invocation of the configured censor at one concrete site
(src/index.js:130-132, 152-154, 158-162, 191-193): a literal censor is used
directly with no call; a censor function is applied and its call recorded. -/
def applyCensor : Censor → JSVal → String → JSVal × Log
  | .lit v, _, _ => (v, [])
  | .cfun f, val, path => (f val path, [(val, path)])

/-- `originalPath.replace('*', r)`: JavaScript `String.replace` with a string
pattern substitutes only the first occurrence; the pattern here is the single
character `*` (src/index.js:153,160). -/
def replaceFirstStarAux : List Char → String → List Char
  | [], _ => []
  | c :: rest, r => if c = '*' then r.data ++ rest else c :: replaceFirstStarAux rest r

/-- See `replaceFirstStarAux`. -/
def replaceFirstStar (s r : String) : String :=
  String.mk (replaceFirstStarAux s.data r)

/-- The terminal-wildcard loop over an array (src/index.js:150-156): each
element is replaced by the censor applied to it and to the original path with
the wildcard replaced by the element's index. -/
def termArr (censor : Censor) (originalPath : String) : Nat → List JSVal → List JSVal × Log
  | _, [] => ([], [])
  | i, v :: rest =>
      let (cv, lg1) := applyCensor censor v (replaceFirstStar originalPath (toString i))
      let (rest', lg2) := termArr censor originalPath (i + 1) rest
      (cv :: rest', lg1 ++ lg2)

/-- The terminal-wildcard loop over an object's own keys
(src/index.js:157-164). -/
def termFields (censor : Censor) (originalPath : String) :
    List (String × JSVal) → List (String × JSVal) × Log
  | [] => ([], [])
  | (k, v) :: rest =>
      let (cv, lg1) := applyCensor censor v (replaceFirstStar originalPath k)
      let (rest', lg2) := termFields censor originalPath rest
      ((k, cv) :: rest', lg1 ++ lg2)

/-- The body run at the container a terminal wildcard resolves to
(src/index.js:150-164): arrays have every index replaced, non-null objects
every own key; anything else (including `Date`, which has no own enumerable
keys, and scalars, which fail the `typeof` test) is left untouched. -/
def terminalTransform (censor : Censor) (originalPath : String) : JSVal → JSVal × Log
  | .arr l =>
      let (l', lg) := termArr censor originalPath 0 l
      (.arr l', lg)
  | .obj fs =>
      let (fs', lg) := termFields censor originalPath fs
      (.obj fs', lg)
  | v => (v, [])

/-- The reference walk `for (const part of parts) { if (current === null ||
current === undefined) return; current = current[part] }` followed by an
action on the final reference (src/index.js:143-148, 201-208).  Because the
action then mutates the object the final reference points into, the
functional image rebuilds the spine with `setKeyExisting`; positions the walk
left by falling off a missing key or a scalar carry `undefined`, on which the
actions below are no-ops, so the rebuild never creates a key. -/
def walkUpdate (f : JSVal → Except Err (JSVal × Log)) :
    JSVal → List String → Except Err (JSVal × Log)
  | current, [] => f current
  | current, p :: rest =>
      if isNullOrUndefined current then .ok (current, [])
      else
        match walkUpdate f (lookup current p) rest with
        | .error e => .error e
        | .ok (child', lg) => .ok (setKeyExisting current p child', lg)

/-- Sequential run of `step` over an array's elements with their indices,
rebuilding the array (the `for` loop of src/index.js:176-179). -/
def runElems (step : JSVal → List String → Except Err (JSVal × Log)) :
    Nat → List JSVal → List String → Except Err (List JSVal × Log)
  | _, [], _ => .ok ([], [])
  | i, v :: rest, pathSoFar =>
      match step v (pathSoFar ++ [toString i]) with
      | .error e => .error e
      | .ok (v', lg1) =>
          match runElems step (i + 1) rest pathSoFar with
          | .error e => .error e
          | .ok (rest', lg2) => .ok (v' :: rest', lg1 ++ lg2)

/-- Sequential run of `step` over an object's own fields with their keys,
rebuilding the object (the `for...in` loop of src/index.js:180-184). -/
def runFields (step : JSVal → List String → Except Err (JSVal × Log)) :
    List (String × JSVal) → List String → Except Err (List (String × JSVal) × Log)
  | [], _ => .ok ([], [])
  | (k, v) :: rest, pathSoFar =>
      match step v (pathSoFar ++ [k]) with
      | .error e => .error e
      | .ok (v', lg1) =>
          match runFields step rest pathSoFar with
          | .error e => .error e
          | .ok (rest', lg2) => .ok ((k, v') :: rest', lg1 ++ lg2)

/-- The branching step of `traverse` (src/index.js:176-184): at the wildcard
position, run the continuation on every element of an array (with its index
appended to the accumulated path) or every own field of an object (with its
key appended); any other value branches into nothing. -/
def traverseBranch (step : JSVal → List String → Except Err (JSVal × Log)) :
    JSVal → List String → Except Err (JSVal × Log)
  | .arr l, pathSoFar =>
      match runElems step 0 l pathSoFar with
      | .error e => .error e
      | .ok (l', lg) => .ok (.arr l', lg)
  | .obj fs, pathSoFar =>
      match runFields step fs pathSoFar with
      | .error e => .error e
      | .ok (fs', lg) => .ok (.obj fs', lg)
  | current, _ => .ok (current, [])

/-- src/index.js:174-196 `traverse`, the recursive worker of the
intermediate-wildcard case.  When the accumulated path has the length of the
fixed prefix it branches into every element/key of the current container; when
it is longer it applies the censor and `setValue` with the fixed suffix; the
shorter case mirrors src/index.js:185-189 (it is unreachable from the entry
points, which start at the prefix).  The `fuel` argument only bounds the
recursion for Lean: every recursive call grows `pathSoFar` by one and the
function stops recursing once `pathSoFar` exceeds the prefix length, so the
entry fuel `before.length + 2` is never exhausted. -/
def traverse (censor : Censor) (before afterW : List String) :
    Nat → JSVal → List String → Except Err (JSVal × Log)
  | 0, current, _ => .ok (current, [])
  | fuel + 1, current, pathSoFar =>
      if pathSoFar.length = before.length then
        traverseBranch (fun v ps => traverse censor before afterW fuel v ps) current pathSoFar
      else if pathSoFar.length < before.length then
        let nextKey := before.getD pathSoFar.length ""
        if truthy current && typeofIsObject current && hasKeyB current nextKey then
          match traverse censor before afterW fuel (lookup current nextKey) (pathSoFar ++ [nextKey]) with
          | .error e => .error e
          | .ok (c', lg) => .ok (setKeyExisting current nextKey c', lg)
        else
          .ok (current, [])
      else
        let pathStr := String.intercalate "." pathSoFar ++ "." ++ String.intercalate "." afterW
        let (cval, lg1) := applyCensor censor (getValue current afterW) pathStr
        match setValue current afterW cval with
        | .error e => .error e
        | .ok (_, current') => .ok (current', lg1)

/-- src/index.js:170-210 `redactIntermediateWildcard`: split the parts at the
wildcard, walk the fixed prefix from the root (with the same null/undefined
guards as `getValue`) and run `traverse` at the container it reaches. -/
def redactIntermediateWildcard (obj : JSVal) (parts : List String) (censor : Censor)
    (wildcardIndex : Nat) : Except Err (JSVal × Log) :=
  let before := parts.take wildcardIndex
  let afterW := parts.drop (wildcardIndex + 1)
  if before.isEmpty then
    traverse censor before afterW (before.length + 2) obj []
  else
    walkUpdate
      (fun current =>
        if isNullOrUndefined current then .ok (current, [])
        else traverse censor before afterW (before.length + 2) current before)
      obj before

/-- src/index.js:138-168 `redactWildcardPath`: a wildcard in last position
walks the preceding parts and replaces every element/key of the container
found there; otherwise the intermediate-wildcard traversal runs. -/
def redactWildcardPath (obj : JSVal) (parts : List String) (censor : Censor)
    (originalPath : String) : Except Err (JSVal × Log) :=
  let wildcardIndex := parts.indexOf "*"
  if wildcardIndex = parts.length - 1 then
    walkUpdate (fun current => .ok (terminalTransform censor originalPath current))
      obj parts.dropLast
  else
    redactIntermediateWildcard obj parts censor wildcardIndex

/-- src/index.js:123-136 `redactPaths`: apply each configured path in order to
the (cloned) root; non-wildcard paths resolve the censor once — calling a
censor function with the value `getValue` finds and the raw path string — and
then run `setValue`. -/
def redactPaths (obj : JSVal) (paths : List String) (censor : Censor) :
    Except Err (JSVal × Log) :=
  match paths with
  | [] => .ok (obj, [])
  | path :: rest =>
      let parts := parsePath path
      let step : Except Err (JSVal × Log) :=
        if parts.contains "*" then
          redactWildcardPath obj parts censor path
        else
          let (cval, lg) := applyCensor censor (getValue obj parts) path
          match setValue obj parts cval with
          | .error e => .error e
          | .ok (_, obj') => .ok (obj', lg)
      match step with
      | .error e => .error e
      | .ok (obj', lg1) =>
          match redactPaths obj' rest censor with
          | .error e => .error e
          | .ok (obj'', lg2) => .ok (obj'', lg1 ++ lg2)

/-- Minimal JSON string escaping (quote and backslash; control characters are
not modelled, no claim uses them). -/
def jsonEscape (s : String) : String :=
  String.mk (s.data.foldr (fun c acc => if c = '"' ∨ c = '\\' then '\\' :: c :: acc else c :: acc) [])

/-- A JSON-quoted string. -/
def quoteStr (s : String) : String :=
  "\"" ++ jsonEscape s ++ "\""

mutual

/-- The body of `JSON.stringify`: `none` for values JSON omits (`undefined`),
otherwise the rendered text.  Dates serialize to a quoted string; the exact
ISO-8601 rendering is not modelled (no claim serializes a date), only that it
is some string derived from the timestamp. -/
def jsonAux : JSVal → Option String
  | .undefined => none
  | .null => some "null"
  | .bool true => some "true"
  | .bool false => some "false"
  | .num n => some (toString n)
  | .str s => some (quoteStr s)
  | .date t => some (quoteStr (toString t))
  | .arr l => some ("[" ++ String.intercalate "," (jsonList l) ++ "]")
  | .obj fs => some ("\x7b" ++ String.intercalate "," (jsonFields fs) ++ "\x7d")

/-- Array elements: JSON renders omitted values (`undefined`) as `null`. -/
def jsonList : List JSVal → List String
  | [] => []
  | v :: rest => ((jsonAux v).getD "null") :: jsonList rest

/-- Object fields: fields whose value JSON omits are dropped. -/
def jsonFields : List (String × JSVal) → List String
  | [] => []
  | (k, v) :: rest =>
      match jsonAux v with
      | none => jsonFields rest
      | some sv => (quoteStr k ++ ":" ++ sv) :: jsonFields rest

end

/-- `JSON.stringify` as a value-to-value function: the resulting text, or
`undefined` when JSON omits the value. -/
def jsonStringify (v : JSVal) : JSVal :=
  match jsonAux v with
  | none => .undefined
  | some s => .str s

/-- The `serialize` option: `false`, or a function (the default is
`JSON.stringify`, src/index.js:216). -/
inductive Serialize where
  | sfalse
  | sfun (f : JSVal → JSVal)

/-- The configuration captured by one `slowRedact` call after defaulting
(src/index.js:212-218). -/
structure Config where
  paths : List String := []
  censor : Censor := .lit (.str "[REDACTED]")
  serialize : Serialize := .sfun jsonStringify
  strict : Bool := true

/-- The value a call of the returned redaction function produces: either a
plain value (serialized text, or the raw passthrough/primitive result), or the
redacted structure together with the snapshot its attached `restore` accessor
closes over (src/index.js:244-248). -/
inductive Output where
  | val (v : JSVal)
  | withRestore (redacted : JSVal) (snapshot : JSVal)

/-- A call of `result.restore()` (src/index.js:245-247): a fresh clone of the
snapshot; `none` when the result carries no restore accessor. -/
def restoreCall : Output → Option JSVal
  | .withRestore _ s => some (deepClone s)
  | .val _ => none

/-- src/index.js:224-256 `redact`, the returned redaction function.  Strict
mode short-circuits `null`/non-object input straight to the serializer.
Otherwise the input is cloned twice (working copy and snapshot), the paths are
applied to the working copy, and the result is serialized — or, with
`serialize: false`, returned with a `restore` accessor attached.  Attaching
`restore` throws on `null`/`undefined`, is silently ignored on other
primitives (sloppy mode), and succeeds on objects. -/
def redact (cfg : Config) (obj : JSVal) : Except Err (Output × Log) :=
  if cfg.strict && (isNull obj || !typeofIsObject obj) then
    .ok (.val (match cfg.serialize with
      | .sfun f => f obj
      | .sfalse => obj), [])
  else
    let cloned := deepClone obj
    let original := deepClone obj
    match redactPaths cloned cfg.paths cfg.censor with
    | .error e => .error e
    | .ok (cloned', lg) =>
        match cfg.serialize with
        | .sfalse =>
            if isNullOrUndefined cloned' then .error .typeError
            else if isObjectLike cloned' then .ok (.withRestore cloned' original, lg)
            else .ok (.val cloned', lg)
        | .sfun f => .ok (.val (f cloned'), lg)

/-- One entry of a `paths` array: a string, or a non-string entry such as the
number `123`. -/
inductive PathEntry where
  | strE (s : String)
  | numE (n : Int)

/-- The `paths` argument as received by the factory, before any validation:
either an array of entries or some non-array value. -/
inductive PathsArg where
  | array (entries : List PathEntry)
  | notArray

/-- The entire construction-time validation src/index.js:212-222 performs:
`paths` must satisfy `Array.isArray`; nothing else is checked (individual
entries are only examined later, inside calls of the returned function). -/
def slowRedactValidate : PathsArg → Except Err Unit
  | .notArray => .error .typeError
  | .array _ => .ok ()

/-- The claim-side notion of a non-wildcard path resolving in a value
(modelled from the spec's words, §7 of spec.md, for comparison with the
source's `setValue`): every intermediate segment is a present key holding a
non-null object, and the final key is present. -/
def specResolves : JSVal → List String → Bool
  | _, [] => true
  | v, [k] => hasKeyB v k
  | v, k :: k2 :: rest =>
      hasKeyB v k && isObjectLike (lookup v k) && specResolves (lookup v k) (k2 :: rest)

/- ------------------------------------------------------------------ -/
/- Infrastructure lemmas                                              -/
/- ------------------------------------------------------------------ -/

/-- Recursion principle for `JSVal` giving membership hypotheses for the
container cases. -/
theorem JSVal.inductionOn {motive : JSVal → Prop}
    (hundefined : motive .undefined) (hnull : motive .null)
    (hbool : ∀ b, motive (.bool b)) (hnum : ∀ n, motive (.num n))
    (hstr : ∀ s, motive (.str s)) (hdate : ∀ t, motive (.date t))
    (harr : ∀ l, (∀ x ∈ l, motive x) → motive (.arr l))
    (hobj : ∀ fs, (∀ kv ∈ fs, motive kv.2) → motive (.obj fs)) :
    ∀ v, motive v
  | .undefined => hundefined
  | .null => hnull
  | .bool b => hbool b
  | .num n => hnum n
  | .str s => hstr s
  | .date t => hdate t
  | .arr l => harr l (fun x hx =>
      JSVal.inductionOn hundefined hnull hbool hnum hstr hdate harr hobj x)
  | .obj fs => hobj fs (fun kv hkv =>
      JSVal.inductionOn hundefined hnull hbool hnum hstr hdate harr hobj kv.2)
decreasing_by
  · have := List.sizeOf_lt_of_mem hx
    simp_wf
    omega
  · have h1 := List.sizeOf_lt_of_mem hkv
    have h2 : sizeOf kv.2 < sizeOf kv := by
      obtain ⟨a, b⟩ := kv
      simp
    simp_wf
    omega

/-- `deepClone` preserves the value: the clone deep-equals its source. -/
theorem deepClone_id : ∀ v, deepClone v = v := by
  intro v
  induction v using JSVal.inductionOn with
  | hundefined => rfl
  | hnull => rfl
  | hbool b => rfl
  | hnum n => rfl
  | hstr s => rfl
  | hdate t => rfl
  | harr l ih =>
      rw [deepClone]
      congr 1
      induction l with
      | nil => rfl
      | cons x rest ihl =>
          rw [deepCloneList, ih x (by simp)]
          rw [ihl (fun y hy => ih y (by simp [hy]))]
  | hobj fs ih =>
      rw [deepClone]
      congr 1
      induction fs with
      | nil => rfl
      | cons kv rest ihl =>
          obtain ⟨k, v⟩ := kv
          rw [deepCloneFields, ih ⟨k, v⟩ (by simp)]
          rw [ihl (fun y hy => ih y (by simp [hy]))]

/-- A key the container does not have reads as `undefined`. -/
theorem lookup_of_hasKeyB_false {v : JSVal} {k : String}
    (h : hasKeyB v k = false) : lookup v k = .undefined := by
  cases v with
  | obj fs =>
      simp only [hasKeyB, List.any_eq_false] at h
      induction fs with
      | nil => rfl
      | cons kv rest ih =>
          obtain ⟨k', x⟩ := kv
          have hk' : ¬(k' = k) := by
            have := h ⟨k', x⟩ (by simp)
            simpa using this
          simp only [lookup, lookupFields, if_neg hk']
          have := ih (fun p hp => h p (by simp [hp]))
          simpa [lookup] using this
  | arr l =>
      simp only [hasKeyB] at h
      cases hidx : arrIdx? k with
      | none => simp [lookup, hidx]
      | some n =>
          rw [hidx] at h
          simp only [decide_eq_false_iff_not, not_lt] at h
          simp only [lookup, hidx]
          clear hidx
          induction l generalizing n with
          | nil => cases n <;> rfl
          | cons x rest ih =>
              cases n with
              | zero => simp at h
              | succ m =>
                  simp only [getIdx]
                  exact ih m (by simpa using h)
  | undefined => rfl
  | null => rfl
  | bool b => rfl
  | num n => rfl
  | str s => rfl
  | date t => rfl

/-- Reading back a key just written with `setKeyExisting` yields the written
value, provided the key was present. -/
theorem lookup_setKeyExisting_self {v : JSVal} {k : String} (x : JSVal)
    (h : hasKeyB v k = true) : lookup (setKeyExisting v k x) k = x := by
  cases v with
  | obj fs =>
      simp only [hasKeyB, List.any_eq_true] at h
      obtain ⟨kv, hmem, hk⟩ := h
      simp only [setKeyExisting, lookup]
      induction fs with
      | nil => simp at hmem
      | cons kv0 rest ih =>
          obtain ⟨k0, x0⟩ := kv0
          by_cases h0 : k0 = k
          · simp [setFields, h0, lookupFields]
          · simp only [setFields, if_neg h0, lookupFields, if_neg h0]
            rcases List.mem_cons.mp hmem with heq | hmem'
            · exfalso
              apply h0
              have : kv.1 = k0 := by rw [heq]
              rw [← this]
              simpa using hk
            · exact ih hmem'
  | arr l =>
      simp only [hasKeyB] at h
      cases hidx : arrIdx? k with
      | none => rw [hidx] at h; simp at h
      | some n =>
          rw [hidx] at h
          simp only [decide_eq_true_eq] at h
          simp only [setKeyExisting, hidx, lookup]
          clear hidx
          induction l generalizing n with
          | nil => simp at h
          | cons y rest ih =>
              cases n with
              | zero => rfl
              | succ m =>
                  simp only [setIdx, getIdx]
                  exact ih m (by simpa using h)
  | undefined => simp [hasKeyB] at h
  | null => simp [hasKeyB] at h
  | bool b => simp [hasKeyB] at h
  | num n => simp [hasKeyB] at h
  | str s => simp [hasKeyB] at h
  | date t => simp [hasKeyB] at h

/-- Writing back the value a present key already holds changes nothing. -/
theorem setKeyExisting_lookup_id {v : JSVal} {k : String}
    (h : hasKeyB v k = true) : setKeyExisting v k (lookup v k) = v := by
  cases v with
  | obj fs =>
      simp only [setKeyExisting, lookup]
      congr 1
      induction fs with
      | nil => rfl
      | cons kv0 rest ih =>
          obtain ⟨k0, x0⟩ := kv0
          by_cases h0 : k0 = k
          · simp [setFields, h0, lookupFields]
          · simp only [setFields, if_neg h0, lookupFields, if_neg h0]
            have h' : hasKeyB (.obj rest) k = true := by
              simp only [hasKeyB, List.any_eq_true] at h ⊢
              rcases h with ⟨kv, hmem, hk⟩
              rcases List.mem_cons.mp hmem with heq | hmem'
              · exfalso
                apply h0
                have : kv.1 = k0 := by rw [heq]
                rw [← this]
                simpa using hk
              · exact ⟨kv, hmem', hk⟩
            have := ih h'
            simpa using this
  | arr l =>
      simp only [hasKeyB] at h
      cases hidx : arrIdx? k with
      | none => rw [hidx] at h; simp at h
      | some n =>
          rw [hidx] at h
          simp only [decide_eq_true_eq] at h
          simp only [setKeyExisting, hidx, lookup]
          congr 1
          clear hidx
          induction l generalizing n with
          | nil => simp at h
          | cons y rest ih =>
              cases n with
              | zero => rfl
              | succ m =>
                  simp only [setIdx, getIdx]
                  rw [ih m (by simpa using h)]
  | undefined => simp [hasKeyB] at h
  | null => simp [hasKeyB] at h
  | bool b => simp [hasKeyB] at h
  | num n => simp [hasKeyB] at h
  | str s => simp [hasKeyB] at h
  | date t => simp [hasKeyB] at h

/-- `setKeyExisting` keeps the shape class of its target. -/
theorem isObjectLike_setKeyExisting (v : JSVal) (k : String) (x : JSVal) :
    isObjectLike (setKeyExisting v k x) = isObjectLike v := by
  cases v <;> simp only [setKeyExisting, isObjectLike] <;> cases arrIdx? k <;> rfl

/-- `setStar` keeps the shape class of its target. -/
theorem isObjectLike_setStar (v : JSVal) (x : JSVal) :
    isObjectLike (setStar v x) = isObjectLike v := by
  cases v <;> rfl

/-- `setValue` returns a root of the same shape class as it was given. -/
theorem setValue_shape {v : JSVal} {parts : List String} {x : JSVal} {b : Bool} {r : JSVal}
    (h : setValue v parts x = .ok (b, r)) : isObjectLike r = isObjectLike v := by
  match parts with
  | [] =>
      simp only [setValue] at h
      cases hin : inOp v "undefined" with
      | error e => rw [hin] at h; exact absurd h (by simp)
      | ok hb =>
          rw [hin] at h
          simp only [Except.ok.injEq, Prod.mk.injEq] at h
          rw [← h.2]
          cases hb <;> simp [isObjectLike_setKeyExisting]
  | [lastKey] =>
      simp only [setValue] at h
      by_cases hstar : lastKey = "*"
      · rw [if_pos hstar] at h
        simp only [Except.ok.injEq, Prod.mk.injEq] at h
        rw [← h.2]
        exact isObjectLike_setStar v x
      · rw [if_neg hstar] at h
        cases hin : inOp v lastKey with
        | error e => rw [hin] at h; exact absurd h (by simp)
        | ok hb =>
            rw [hin] at h
            simp only [Except.ok.injEq, Prod.mk.injEq] at h
            rw [← h.2]
            cases hb <;> simp [isObjectLike_setKeyExisting]
  | key :: k2 :: rest =>
      simp only [setValue] at h
      cases hin : inOp v key with
      | error e => rw [hin] at h; exact absurd h (by simp)
      | ok hb =>
          rw [hin] at h
          cases hb with
          | false =>
              simp only [Except.ok.injEq, Prod.mk.injEq] at h
              rw [← h.2]
          | true =>
              simp only at h
              by_cases hol : isObjectLike (lookup v key)
              · rw [if_pos hol] at h
                cases hrec : setValue (lookup v key) (k2 :: rest) x with
                | error e => rw [hrec] at h; exact absurd h (by simp)
                | ok p =>
                    rw [hrec] at h
                    simp only [Except.ok.injEq, Prod.mk.injEq] at h
                    rw [← h.2]
                    simp [isObjectLike_setKeyExisting]
              · rw [if_neg hol] at h
                simp only [Except.ok.injEq, Prod.mk.injEq] at h
                rw [← h.2]

/-- `setValue` cannot throw when its root is a non-null object: every `in`
test it performs is on the root or on a child already checked to be a
non-null object. -/
theorem setValue_container_ok {v : JSVal} (parts : List String) (x : JSVal)
    (hv : isObjectLike v = true) : ∃ b r, setValue v parts x = .ok (b, r) := by
  induction parts generalizing v with
  | nil =>
      refine ⟨true, if hasKeyB v "undefined" then setKeyExisting v "undefined" x else v, ?_⟩
      simp [setValue, inOp, hv]
  | cons key rest ih =>
      match rest with
      | [] =>
          by_cases hstar : key = "*"
          · exact ⟨true, setStar v x, by simp [setValue, hstar]⟩
          · refine ⟨true, if hasKeyB v key then setKeyExisting v key x else v, ?_⟩
            simp [setValue, if_neg hstar, inOp, hv]
      | k2 :: rest2 =>
          simp only [setValue, inOp, hv, if_true]
          cases hkb : hasKeyB v key with
          | false => exact ⟨false, v, rfl⟩
          | true =>
              simp only
              by_cases hol : isObjectLike (lookup v key)
              · rw [if_pos hol]
                obtain ⟨b, r, hr⟩ := ih hol
                rw [hr]
                exact ⟨b, _, rfl⟩
              · rw [if_neg hol]
                exact ⟨false, v, rfl⟩

/-- With a non-object root and a non-wildcard parts list, `setValue` throws:
its first `in` test is applied to the root. -/
theorem setValue_scalar_error {v : JSVal} {parts : List String} (x : JSVal)
    (hv : isObjectLike v = false) (hw : parts.contains "*" = false) :
    setValue v parts x = .error .typeError := by
  match parts with
  | [] =>
      simp [setValue, inOp, hv]
  | [lastKey] =>
      have hstar : ¬(lastKey = "*") := by
        simp only [List.contains, List.elem_eq_mem, decide_eq_false_iff_not] at hw
        intro hcon
        exact hw (by simp [hcon])
      simp [setValue, if_neg hstar, inOp, hv]
  | key :: k2 :: rest =>
      simp [setValue, inOp, hv]

/-- `terminalTransform` keeps the shape class of its target. -/
theorem isObjectLike_terminalTransform (censor : Censor) (p : String) (v : JSVal) :
    isObjectLike (terminalTransform censor p v).1 = isObjectLike v := by
  cases v <;> simp [terminalTransform, isObjectLike]

/-- `walkUpdate` keeps the root's shape class whenever its action does. -/
theorem walkUpdate_shape {f : JSVal → Except Err (JSVal × Log)}
    (hf : ∀ c r lg, f c = .ok (r, lg) → isObjectLike r = isObjectLike c) :
    ∀ (parts : List String) (v r : JSVal) (lg : Log),
      walkUpdate f v parts = .ok (r, lg) → isObjectLike r = isObjectLike v := by
  intro parts
  cases parts with
  | nil =>
      intro v r lg h
      exact hf v r lg h
  | cons p rest =>
      intro v r lg h
      simp only [walkUpdate] at h
      by_cases hnu : isNullOrUndefined v
      · rw [if_pos hnu] at h
        simp only [Except.ok.injEq, Prod.mk.injEq] at h
        rw [← h.1]
      · rw [if_neg hnu] at h
        cases hrec : walkUpdate f (lookup v p) rest with
        | error e => rw [hrec] at h; exact absurd h (by simp)
        | ok q =>
            rw [hrec] at h
            simp only [Except.ok.injEq, Prod.mk.injEq] at h
            rw [← h.1]
            simp [isObjectLike_setKeyExisting]

/-- `traverseBranch` keeps the shape class of the value it branches over. -/
theorem traverseBranch_shape {step : JSVal → List String → Except Err (JSVal × Log)}
    {current : JSVal} {pathSoFar : List String} {r : JSVal} {lg : Log}
    (h : traverseBranch step current pathSoFar = .ok (r, lg)) :
    isObjectLike r = isObjectLike current := by
  cases current with
  | arr l =>
      simp only [traverseBranch] at h
      cases hrun : runElems step 0 l pathSoFar with
      | error e => rw [hrun] at h; exact absurd h (by simp)
      | ok q =>
          rw [hrun] at h
          simp only [Except.ok.injEq, Prod.mk.injEq] at h
          rw [← h.1]
          rfl
  | obj fs =>
      simp only [traverseBranch] at h
      cases hrun : runFields step fs pathSoFar with
      | error e => rw [hrun] at h; exact absurd h (by simp)
      | ok q =>
          rw [hrun] at h
          simp only [Except.ok.injEq, Prod.mk.injEq] at h
          rw [← h.1]
          rfl
  | undefined => simp only [traverseBranch, Except.ok.injEq, Prod.mk.injEq] at h; rw [← h.1]
  | null => simp only [traverseBranch, Except.ok.injEq, Prod.mk.injEq] at h; rw [← h.1]
  | bool b => simp only [traverseBranch, Except.ok.injEq, Prod.mk.injEq] at h; rw [← h.1]
  | num n => simp only [traverseBranch, Except.ok.injEq, Prod.mk.injEq] at h; rw [← h.1]
  | str s => simp only [traverseBranch, Except.ok.injEq, Prod.mk.injEq] at h; rw [← h.1]
  | date t => simp only [traverseBranch, Except.ok.injEq, Prod.mk.injEq] at h; rw [← h.1]

/-- `traverse` keeps the shape class of the value it is run on. -/
theorem traverse_shape (censor : Censor) (before afterW : List String) :
    ∀ (fuel : Nat) (current : JSVal) (pathSoFar : List String) (r : JSVal) (lg : Log),
      traverse censor before afterW fuel current pathSoFar = .ok (r, lg) →
      isObjectLike r = isObjectLike current := by
  intro fuel
  cases fuel with
  | zero =>
      intro current pathSoFar r lg h
      simp only [traverse, Except.ok.injEq, Prod.mk.injEq] at h
      rw [← h.1]
  | succ fuel =>
      intro current pathSoFar r lg h
      simp only [traverse] at h
      by_cases heq : pathSoFar.length = before.length
      · rw [if_pos heq] at h
        exact traverseBranch_shape h
      · rw [if_neg heq] at h
        by_cases hlt : pathSoFar.length < before.length
        · rw [if_pos hlt] at h
          by_cases hguard : (truthy current && typeofIsObject current &&
              hasKeyB current (before.getD pathSoFar.length "")) = true
          · rw [if_pos hguard] at h
            cases hrec : traverse censor before afterW fuel
                (lookup current (before.getD pathSoFar.length ""))
                (pathSoFar ++ [before.getD pathSoFar.length ""]) with
            | error e => rw [hrec] at h; exact absurd h (by simp)
            | ok q =>
                rw [hrec] at h
                simp only [Except.ok.injEq, Prod.mk.injEq] at h
                rw [← h.1]
                simp [isObjectLike_setKeyExisting]
          · rw [if_neg hguard] at h
            simp only [Except.ok.injEq, Prod.mk.injEq] at h
            rw [← h.1]
        · rw [if_neg hlt] at h
          cases hset : setValue current afterW
              (applyCensor censor (getValue current afterW)
                (String.intercalate "." pathSoFar ++ "." ++ String.intercalate "." afterW)).1 with
          | error e =>
              rw [hset] at h
              exact absurd h (by simp)
          | ok q =>
              obtain ⟨qb, qv⟩ := q
              rw [hset] at h
              simp only [Except.ok.injEq, Prod.mk.injEq] at h
              rw [← h.1]
              exact setValue_shape hset

/-- `redactWildcardPath` keeps the root's shape class. -/
theorem redactWildcardPath_shape {obj : JSVal} {parts : List String} {censor : Censor}
    {originalPath : String} {r : JSVal} {lg : Log}
    (h : redactWildcardPath obj parts censor originalPath = .ok (r, lg)) :
    isObjectLike r = isObjectLike obj := by
  simp only [redactWildcardPath] at h
  by_cases hterm : parts.indexOf "*" = parts.length - 1
  · rw [if_pos hterm] at h
    refine walkUpdate_shape ?_ parts.dropLast obj r lg h
    intro c rc lgc hc
    simp only [Except.ok.injEq] at hc
    have h1 : (terminalTransform censor originalPath c).1 = rc := by rw [hc]
    rw [← h1]
    exact isObjectLike_terminalTransform censor originalPath c
  · rw [if_neg hterm] at h
    simp only [redactIntermediateWildcard] at h
    by_cases hemp : (parts.take (parts.indexOf "*")).isEmpty
    · rw [if_pos hemp] at h
      exact traverse_shape _ _ _ _ _ _ _ _ h
    · rw [if_neg hemp] at h
      refine walkUpdate_shape ?_ _ obj r lg h
      intro c rc lgc hc
      by_cases hnu : isNullOrUndefined c
      · rw [if_pos hnu] at hc
        simp only [Except.ok.injEq, Prod.mk.injEq] at hc
        rw [← hc.1]
      · rw [if_neg hnu] at hc
        exact traverse_shape _ _ _ _ _ _ _ _ hc

/-- `redactPaths` keeps the root's shape class. -/
theorem redactPaths_shape :
    ∀ (paths : List String) (obj : JSVal) (censor : Censor) (r : JSVal) (lg : Log),
      redactPaths obj paths censor = .ok (r, lg) → isObjectLike r = isObjectLike obj := by
  intro paths
  induction paths with
  | nil =>
      intro obj censor r lg h
      simp only [redactPaths, Except.ok.injEq, Prod.mk.injEq] at h
      rw [← h.1]
  | cons path rest ih =>
      intro obj censor r lg h
      simp only [redactPaths] at h
      by_cases hw : (parsePath path).contains "*"
      · rw [if_pos hw] at h
        cases hstep : redactWildcardPath obj (parsePath path) censor path with
        | error e => rw [hstep] at h; exact absurd h (by simp)
        | ok q =>
            rw [hstep] at h
            dsimp only at h
            cases hrest : redactPaths q.1 rest censor with
            | error e => rw [hrest] at h; exact absurd h (by simp)
            | ok q2 =>
                rw [hrest] at h
                simp only [Except.ok.injEq, Prod.mk.injEq] at h
                rw [← h.1]
                calc isObjectLike q2.1 = isObjectLike q.1 := ih q.1 censor q2.1 q2.2 (by rw [hrest])
                  _ = isObjectLike obj := redactWildcardPath_shape (by rw [hstep])
      · rw [if_neg hw] at h
        cases hset : setValue obj (parsePath path)
            (applyCensor censor (getValue obj (parsePath path)) path).1 with
        | error e => rw [hset] at h; exact absurd h (by simp)
        | ok q =>
            obtain ⟨qb, qv⟩ := q
            rw [hset] at h
            dsimp only at h
            cases hrest : redactPaths qv rest censor with
            | error e => rw [hrest] at h; exact absurd h (by simp)
            | ok q2 =>
                rw [hrest] at h
                simp only [Except.ok.injEq, Prod.mk.injEq] at h
                rw [← h.1]
                calc isObjectLike q2.1 = isObjectLike qv := ih qv censor q2.1 q2.2 (by rw [hrest])
                  _ = isObjectLike obj := setValue_shape hset

/-- A literal censor applied by the terminal-wildcard array loop replaces
every element and makes no censor calls. -/
theorem termArr_lit (c : JSVal) (p : String) :
    ∀ (i : Nat) (l : List JSVal), termArr (.lit c) p i l = (l.map (fun _ => c), []) := by
  intro i l
  induction l generalizing i with
  | nil => rfl
  | cons x rest ih => simp [termArr, applyCensor, ih]

/-- A literal censor applied by the terminal-wildcard object loop replaces
every field's value and makes no censor calls. -/
theorem termFields_lit (c : JSVal) (p : String) :
    ∀ (fs : List (String × JSVal)),
      termFields (.lit c) p fs = (fs.map (fun kv => (kv.1, c)), []) := by
  intro fs
  induction fs with
  | nil => rfl
  | cons kv rest ih =>
      obtain ⟨k, v⟩ := kv
      simp [termFields, applyCensor, ih]

/-- A value that reads as a non-null object at the end of a `getValue`-style
walk forces every step of the walk to go through a present key; consequently
`walkUpdate` reaches exactly that value, applies its action there, writes the
result back along the same spine, and the updated root reads back the action's
result at the same position. -/
theorem walkUpdate_getValue (f : JSVal → Except Err (JSVal × Log)) :
    ∀ (parts : List String) (obj v v' : JSVal) (lg : Log),
      getValue obj parts = v → isObjectLike v = true → f v = .ok (v', lg) →
      ∃ r, walkUpdate f obj parts = .ok (r, lg) ∧ getValue r parts = v' := by
  intro parts
  induction parts with
  | nil =>
      intro obj v v' lg hget hol hf
      simp only [getValue] at hget
      subst hget
      exact ⟨v', by simp [walkUpdate, hf, getValue]⟩
  | cons p rest ih =>
      intro obj v v' lg hget hol hf
      simp only [getValue] at hget
      by_cases hnu : isNullOrUndefined obj
      · rw [if_pos hnu] at hget
        exfalso
        have : getValue JSVal.undefined rest = v := by
          cases rest with
          | nil => exact hget
          | cons r2 rest2 => simpa [getValue, isNullOrUndefined] using hget
        rw [← this] at hol
        cases rest with
        | nil => simp [getValue, isObjectLike] at hol
        | cons r2 rest2 => simp [getValue, isNullOrUndefined, isObjectLike] at hol
      · rw [if_neg hnu] at hget
        have hkey : hasKeyB obj p = true := by
          by_contra hk
          have hk' : hasKeyB obj p = false := by simpa using hk
          rw [lookup_of_hasKeyB_false hk'] at hget
          have : getValue JSVal.undefined rest = v := hget
          rw [← this] at hol
          cases rest with
          | nil => simp [getValue, isObjectLike] at hol
          | cons r2 rest2 => simp [getValue, isNullOrUndefined, isObjectLike] at hol
        obtain ⟨rc, hrc, hrcget⟩ := ih (lookup obj p) v v' lg hget hol hf
        refine ⟨setKeyExisting obj p rc, ?_, ?_⟩
        · simp [walkUpdate, if_neg hnu, hrc]
        · have hobjshape : isObjectLike obj = true := by
            cases obj with
            | obj fs => rfl
            | arr l => rfl
            | date t =>
                exfalso
                simp [hasKeyB] at hkey
            | undefined => simp [isNullOrUndefined] at hnu
            | null => simp [isNullOrUndefined] at hnu
            | bool b => simp [hasKeyB] at hkey
            | num n => simp [hasKeyB] at hkey
            | str s => simp [hasKeyB] at hkey
          have hnu' : isNullOrUndefined (setKeyExisting obj p rc) = false := by
            cases obj with
            | obj fs => rfl
            | arr l => simp only [setKeyExisting]; cases arrIdx? p <;> rfl
            | date t => simp [hasKeyB] at hkey
            | undefined => simp [isNullOrUndefined] at hnu
            | null => simp [isNullOrUndefined] at hnu
            | bool b => simp [hasKeyB] at hkey
            | num n => simp [hasKeyB] at hkey
            | str s => simp [hasKeyB] at hkey
          simp only [getValue, hnu', if_neg, Bool.false_eq_true, not_false_eq_true]
          rw [lookup_setKeyExisting_self rc hkey]
          exact hrcget

/-- In a parts list obtained by appending the wildcard to a wildcard-free
prefix, the first wildcard is the final position. -/
theorem indexOf_concat_star :
    ∀ (parent : List String), parent.contains "*" = false →
      (parent ++ ["*"]).indexOf "*" = parent.length := by
  intro parent
  induction parent with
  | nil => intro _; rfl
  | cons k rest ih =>
      intro h
      simp only [List.contains_cons, Bool.or_eq_false_iff] at h
      have hbeq : (k == "*") = false := by
        cases hkk : (k == "*") with
        | false => rfl
        | true =>
            exfalso
            have hkeq : k = "*" := by simpa using hkk
            have h1 := h.1
            rw [hkeq] at h1
            simp at h1
      simp only [List.cons_append, List.indexOf_cons, hbeq, cond_false, List.length_cons]
      rw [ih h.2]

/-- A non-object read by `lookup` yields `undefined` (scalars have no
modelled properties). -/
theorem lookup_not_objectLike {v : JSVal} (h : isObjectLike v = false) (k : String) :
    lookup v k = .undefined := by
  cases v with
  | obj fs => simp [isObjectLike] at h
  | arr l => simp [isObjectLike] at h
  | date t => rfl
  | undefined => rfl
  | null => rfl
  | bool b => rfl
  | num n => rfl
  | str s => rfl

/-- `setKeyExisting` on a non-object (no array, no object) is the identity. -/
theorem setKeyExisting_not_container {v : JSVal} (h : isObjectLike v = false)
    (k : String) (x : JSVal) : setKeyExisting v k x = v := by
  cases v with
  | obj fs => simp [isObjectLike] at h
  | arr l => simp [isObjectLike] at h
  | date t => rfl
  | undefined => rfl
  | null => rfl
  | bool b => rfl
  | num n => rfl
  | str s => rfl

/-- `traverseBranch` on a non-container is a no-op. -/
theorem traverseBranch_not_container {v : JSVal} (h : isObjectLike v = false)
    (step : JSVal → List String → Except Err (JSVal × Log)) (ps : List String) :
    traverseBranch step v ps = .ok (v, []) := by
  cases v with
  | obj fs => simp [isObjectLike] at h
  | arr l => simp [isObjectLike] at h
  | date t => rfl
  | undefined => rfl
  | null => rfl
  | bool b => rfl
  | num n => rfl
  | str s => rfl

/-- `walkUpdate` through a non-object root (or a walk falling off into
`undefined`) is a no-op, provided the action itself is a no-op on
non-objects. -/
theorem walkUpdate_scalar {f : JSVal → Except Err (JSVal × Log)}
    (hf : ∀ w, isObjectLike w = false → f w = .ok (w, [])) :
    ∀ (parts : List String) (v : JSVal), isObjectLike v = false →
      walkUpdate f v parts = .ok (v, []) := by
  intro parts
  induction parts with
  | nil =>
      intro v hv
      simp [walkUpdate, hf v hv]
  | cons p rest ih =>
      intro v hv
      by_cases hnu : isNullOrUndefined v
      · simp [walkUpdate, hnu]
      · have hlk : lookup v p = .undefined := lookup_not_objectLike hv p
        have hrec := ih JSVal.undefined rfl
        simp [walkUpdate, hnu, hlk, hrec, setKeyExisting_not_container hv]

/-- `redactWildcardPath` on a non-object root makes no change, performs no
censor call, and raises no error: all its walks are guarded reads. -/
theorem redactWildcardPath_scalar {v : JSVal} (hv : isObjectLike v = false)
    (parts : List String) (censor : Censor) (originalPath : String) :
    redactWildcardPath v parts censor originalPath = .ok (v, []) := by
  simp only [redactWildcardPath]
  by_cases hif : parts.indexOf "*" = parts.length - 1
  · rw [if_pos hif]
    refine walkUpdate_scalar ?_ parts.dropLast v hv
    intro w hw
    cases w with
    | obj fs => simp [isObjectLike] at hw
    | arr l => simp [isObjectLike] at hw
    | date t => rfl
    | undefined => rfl
    | null => rfl
    | bool b => rfl
    | num n => rfl
    | str s => rfl
  · rw [if_neg hif]
    simp only [redactIntermediateWildcard]
    by_cases hemp : (parts.take (parts.indexOf "*")).isEmpty
    · rw [if_pos hemp]
      have hempty : parts.take (parts.indexOf "*") = [] := by
        simpa [List.isEmpty_iff] using hemp
      rw [hempty]
      simp only [List.length_nil]
      rw [show (0 + 2 : Nat) = 1 + 1 from rfl]
      simp only [traverse, List.length_nil, if_pos rfl]
      exact traverseBranch_not_container hv _ _
    · rw [if_neg hemp]
      refine walkUpdate_scalar ?_ _ v hv
      intro w hw
      by_cases hnu : isNullOrUndefined w
      · simp [hnu]
      · rw [if_neg (by simp [hnu])]
        cases hfuel : (parts.take (parts.indexOf "*")).length + 2 with
        | zero => omega
        | succ n =>
            simp only [traverse, if_pos rfl]
            exact traverseBranch_not_container hw _ _

/-- `redactPaths` on a non-object root throws as soon as it reaches a
non-wildcard path: wildcard paths pass over such a root harmlessly, but
`setValue`'s first `in` test throws. -/
theorem redactPaths_scalar_error {v : JSVal} (hv : isObjectLike v = false) :
    ∀ (paths : List String) (censor : Censor),
      (∃ p ∈ paths, (parsePath p).contains "*" = false) →
      redactPaths v paths censor = .error .typeError := by
  intro paths
  induction paths with
  | nil =>
      intro censor hp
      obtain ⟨p, hmem, _⟩ := hp
      simp at hmem
  | cons path rest ih =>
      intro censor hp
      by_cases hw : (parsePath path).contains "*"
      · have hstep := redactWildcardPath_scalar hv (parsePath path) censor path
        have hrest : ∃ p ∈ rest, (parsePath p).contains "*" = false := by
          obtain ⟨p, hmem, hpw⟩ := hp
          rcases List.mem_cons.mp hmem with heq | hmem'
          · exfalso
            rw [heq] at hpw
            rw [hpw] at hw
            exact absurd hw (by simp)
          · exact ⟨p, hmem', hpw⟩
        have hmem : "*" ∈ parsePath path := by simpa using hw
        simp [redactPaths, hmem, hstep, ih censor hrest]
      · have hset := setValue_scalar_error
          (applyCensor censor (getValue v (parsePath path)) path).1 hv (by simpa using hw)
        have hmem : ¬("*" ∈ parsePath path) := by simpa using hw
        simp [redactPaths, hmem, hset]

/-- When a non-wildcard path fails to resolve in a container root — a missing
key at some segment, or an intermediate segment holding a non-object —
`setValue` walks as far as its guards allow, performs no assignment, raises no
error, and returns the root unchanged. -/
theorem setValue_not_resolves :
    ∀ (parts : List String) (v x : JSVal), isObjectLike v = true → parts ≠ [] →
      parts.contains "*" = false → specResolves v parts = false →
      ∃ b, setValue v parts x = .ok (b, v) := by
  intro parts
  match parts with
  | [] => intro v x _ hne _ _; exact absurd rfl hne
  | [lastKey] =>
      intro v x hv _ hw hres
      have hstar : ¬(lastKey = "*") := by
        intro hcon
        rw [hcon] at hw
        simp [List.contains] at hw
      have hkb : hasKeyB v lastKey = false := by
        simpa [specResolves] using hres
      refine ⟨true, ?_⟩
      simp [setValue, if_neg hstar, inOp, hv, hkb]
  | key :: k2 :: rest =>
      intro v x hv _ hw hres
      have hw2 : (k2 :: rest).contains "*" = false := by
        simp only [List.contains_cons, Bool.or_eq_false_iff] at hw ⊢
        exact hw.2
      simp only [specResolves, Bool.and_eq_false_iff] at hres
      by_cases hkb : hasKeyB v key
      · by_cases hol : isObjectLike (lookup v key)
        · have hres2 : specResolves (lookup v key) (k2 :: rest) = false := by
            rcases hres with h1 | h2
            · rcases h1 with h1a | h1b
              · rw [hkb] at h1a; exact absurd h1a (by simp)
              · rw [hol] at h1b; exact absurd h1b (by simp)
            · exact h2
          obtain ⟨b, hb⟩ := setValue_not_resolves (k2 :: rest) (lookup v key) x hol
            (by simp) hw2 hres2
          refine ⟨b, ?_⟩
          simp only [setValue, inOp, hv, if_true, hkb]
          simp only [if_pos hol, hb]
          rw [setKeyExisting_lookup_id hkb]
        · refine ⟨false, ?_⟩
          simp only [setValue, inOp, hv, if_true, hkb]
          simp [if_neg hol]
      · refine ⟨false, ?_⟩
        have hkb' : hasKeyB v key = false := by simpa using hkb
        simp [setValue, inOp, hv, hkb']

/-- A non-null object is neither `null` nor `undefined`. -/
theorem isNullOrUndefinedined_of_objectLike {v : JSVal} (h : isObjectLike v = true) :
    isNullOrUndefined v = false := by
  cases v <;> simp_all [isObjectLike, isNullOrUndefined]

/- ------------------------------------------------------------------ -/
/- Claim theorems                                                     -/
/- ------------------------------------------------------------------ -/

/-- Claim C1: invoking the redaction function leaves the caller's input
deeply unchanged under every configuration.  In this value-level embedding
the source's in-place mutations are functional updates applied to
`deepClone obj` (the working copy), never to `obj`, so the input after the
call is `obj` itself; the substantive facts are that the pre-call snapshot the
function takes (`deepClone obj`, the `original` of src/index.js:235) deep-
equals the input, and that consequently running the redaction on the clone is
indistinguishable from running it on the input. -/
theorem c1_non_mutation (cfg : Config) (obj : JSVal) :
    deepClone obj = obj ∧ redact cfg (deepClone obj) = redact cfg obj := by
  have h := deepClone_id obj
  exact ⟨h, by rw [h]⟩

/-- Claim C2 (refuted, code bug): construction does not validate individual
path entries.  The only construction-time check src/index.js:220-222 performs
is `Array.isArray(paths)`: the factory accepts `['a..b']`, `['a[b']`, `[123]`
and `['']` and returns a redaction function, although the repository's own
test suite (test/index.test.js, `path validation` tests) requires each of
them to throw. -/
theorem c2_construction_no_validation :
    slowRedactValidate (.array [.strE "a..b"]) = .ok () ∧
    slowRedactValidate (.array [.strE "a[b"]) = .ok () ∧
    slowRedactValidate (.array [.numE 123]) = .ok () ∧
    slowRedactValidate (.array [.strE ""]) = .ok () ∧
    slowRedactValidate .notArray = .error .typeError :=
  ⟨rfl, rfl, rfl, rfl, rfl⟩

/-- Claim C3: with `serialize: false` and an object input, the result carries
a `restore` accessor and every `restore()` call returns a fresh clone of the
pre-redaction snapshot that deep-equals the original input.  (Freshness and
independence are automatic at the value level: `restoreCall` re-clones the
snapshot on every call.) -/
theorem c3_restore_round_trip (cfg : Config) (obj : JSVal) (out : Output) (lg : Log)
    (hs : cfg.serialize = Serialize.sfalse) (hobj : isObjectLike obj = true)
    (hok : redact cfg obj = .ok (out, lg)) :
    ∃ redacted snapshot, out = .withRestore redacted snapshot ∧ restoreCall out = some obj := by
  have hto : typeofIsObject obj = true := by
    cases obj <;> simp_all [isObjectLike, typeofIsObject]
  have hnn : isNull obj = false := by
    cases obj <;> simp_all [isObjectLike, isNull]
  have hcond : (cfg.strict && (isNull obj || !typeofIsObject obj)) = false := by
    simp [hnn, hto]
  simp only [redact, hcond, Bool.false_eq_true, if_false] at hok
  cases hrp : redactPaths (deepClone obj) cfg.paths cfg.censor with
  | error e => rw [hrp] at hok; exact absurd hok (by simp)
  | ok q =>
      obtain ⟨cl, lg1⟩ := q
      rw [hrp] at hok
      dsimp only at hok
      rw [hs] at hok
      have hq : isObjectLike cl = true := by
        have hsh := redactPaths_shape cfg.paths (deepClone obj) cfg.censor cl lg1 (by rw [hrp])
        rw [deepClone_id, hobj] at hsh
        exact hsh
      have hqnu : isNullOrUndefined cl = false := isNullOrUndefinedined_of_objectLike hq
      rw [if_neg (by simp [hqnu]), if_pos (by simp [hq])] at hok
      simp only [Except.ok.injEq, Prod.mk.injEq] at hok
      refine ⟨cl, deepClone obj, ?_, ?_⟩
      · rw [← hok.1]
      · rw [← hok.1]
        simp [restoreCall, deepClone_id]

/-- Witness for C3 at the inputs of the spec's example: redacting
`{secret: 'hidden'}` along path `secret` with serialization disabled. -/
theorem c3_restore_round_trip_witness :
    ∃ redacted snapshot,
      Output.withRestore (.obj [("secret", .str "[REDACTED]")]) (.obj [("secret", .str "hidden")])
        = Output.withRestore redacted snapshot ∧
      restoreCall
        (Output.withRestore (.obj [("secret", .str "[REDACTED]")]) (.obj [("secret", .str "hidden")]))
        = some (.obj [("secret", .str "hidden")]) :=
  c3_restore_round_trip { paths := ["secret"], serialize := .sfalse }
    (.obj [("secret", .str "hidden")])
    (.withRestore (.obj [("secret", .str "[REDACTED]")]) (.obj [("secret", .str "hidden")]))
    [] rfl rfl rfl

/-- Claim C4 (the code contradicts it, code bug): the claim's positive
examples hold — `a.*.b` replaces both object branches and both array
indices — but a wildcard branch whose value is a primitive is not silently
skipped: `setValue` evaluates `'nested' in 123`, which throws a TypeError.
The repository's own regression test for GitHub issue 5
(test/index.test.js, `type safety` test) asserts this very input does not
throw. -/
theorem c4_intermediate_wildcard_branch_throws :
    redact { paths := ["data.*.nested"] }
      (.obj [("data", .obj [("item1", .num 123), ("item2", .obj [("nested", .str "secret")])])])
      = .error .typeError ∧
    redactPaths (.obj [("a", .obj [("x", .obj [("b", .num 1)]), ("y", .obj [("b", .num 2)])])])
      ["a.*.b"] (.lit (.str "[REDACTED]"))
      = .ok (.obj [("a", .obj [("x", .obj [("b", .str "[REDACTED]")]),
          ("y", .obj [("b", .str "[REDACTED]")])])], []) ∧
    redactPaths (.obj [("a", .arr [.obj [("b", .num 1)], .obj [("b", .num 2)]])])
      ["a.*.b"] (.lit (.str "[REDACTED]"))
      = .ok (.obj [("a", .arr [.obj [("b", .str "[REDACTED]")],
          .obj [("b", .str "[REDACTED]")]])], []) :=
  ⟨rfl, rfl, rfl⟩

/-- The terminal-wildcard case of `redactWildcardPath` on a wildcard-free
prefix followed by `*` reduces to the guarded walk-and-replace. -/
theorem redactWildcardPath_concat (obj : JSVal) (parent : List String) (censor : Censor)
    (path : String) (hw : parent.contains "*" = false) :
    redactWildcardPath obj (parent ++ ["*"]) censor path
      = walkUpdate (fun cur => .ok (terminalTransform censor path cur)) obj parent := by
  simp only [redactWildcardPath]
  rw [indexOf_concat_star parent hw]
  rw [if_pos (by simp), List.dropLast_concat]

/-- Claim C5: a terminal wildcard replaces every element of the ordered
sequence its prefix resolves to — preserving its length — and every own key's
value when the prefix resolves to a mapping. -/
theorem c5_terminal_wildcard (obj : JSVal) (parent : List String) (c : JSVal) (path : String)
    (hw : parent.contains "*" = false) :
    (∀ l, getValue obj parent = .arr l →
      ∃ r, redactWildcardPath obj (parent ++ ["*"]) (.lit c) path = .ok (r, []) ∧
        getValue r parent = .arr (l.map (fun _ => c)) ∧
        (l.map (fun _ => c)).length = l.length) ∧
    (∀ fs, getValue obj parent = .obj fs →
      ∃ r, redactWildcardPath obj (parent ++ ["*"]) (.lit c) path = .ok (r, []) ∧
        getValue r parent = .obj (fs.map (fun kv => (kv.1, c)))) := by
  constructor
  · intro l hget
    have hf : (fun cur => (Except.ok (terminalTransform (.lit c) path cur) :
          Except Err (JSVal × Log))) (JSVal.arr l)
        = .ok (.arr (l.map (fun _ => c)), ([] : Log)) := by
      simp [terminalTransform, termArr_lit]
    obtain ⟨r, hr, hrget⟩ := walkUpdate_getValue
      (fun cur => .ok (terminalTransform (.lit c) path cur)) parent obj (.arr l)
      (.arr (l.map (fun _ => c))) [] hget rfl hf
    rw [redactWildcardPath_concat obj parent (.lit c) path hw]
    exact ⟨r, hr, hrget, by simp⟩
  · intro fs hget
    have hf : (fun cur => (Except.ok (terminalTransform (.lit c) path cur) :
          Except Err (JSVal × Log))) (JSVal.obj fs)
        = .ok (.obj (fs.map (fun kv => (kv.1, c))), ([] : Log)) := by
      simp [terminalTransform, termFields_lit]
    obtain ⟨r, hr, hrget⟩ := walkUpdate_getValue
      (fun cur => .ok (terminalTransform (.lit c) path cur)) parent obj (.obj fs)
      (.obj (fs.map (fun kv => (kv.1, c)))) [] hget rfl hf
    rw [redactWildcardPath_concat obj parent (.lit c) path hw]
    exact ⟨r, hr, hrget⟩

/-- Witness for C5 at the spec's example `items.*` against
`{items: [1, 2, 3]}`: every element replaced, length 3 preserved. -/
theorem c5_terminal_wildcard_witness :
    ∃ r, redactWildcardPath (.obj [("items", .arr [.num 1, .num 2, .num 3])])
        (["items"] ++ ["*"]) (.lit (.str "[REDACTED]")) "items.*" = .ok (r, []) ∧
      getValue r ["items"] = .arr ([JSVal.num 1, .num 2, .num 3].map (fun _ => .str "[REDACTED]")) ∧
      ([JSVal.num 1, .num 2, .num 3].map (fun _ => JSVal.str "[REDACTED]")).length
        = [JSVal.num 1, .num 2, .num 3].length :=
  (c5_terminal_wildcard (.obj [("items", .arr [.num 1, .num 2, .num 3])]) ["items"]
    (.str "[REDACTED]") "items.*" rfl).1 [.num 1, .num 2, .num 3] rfl

/-- Claim C6 counterexample: the censor function is not invoked "once per
concrete match" — a configured non-wildcard path that matches nothing still
produces exactly one invocation, with `undefined` and the path string, while
the output shows no concrete match was redacted. -/
theorem c6_invocation_without_match :
    redactPaths (.obj []) ["a.b"] (.cfun (fun _ _ => .str "X"))
      = .ok (.obj [], [(.undefined, "a.b")]) :=
  rfl

/-- Claim C6 as amended: a censor function is invoked exactly once per
configured non-wildcard path — whether or not the path resolves — with the
value `getValue` finds there (`undefined` on a miss) and the unmodified path
string; in particular, for `secret` against `{secret: 'hidden'}` it is
invoked exactly once with `('hidden', 'secret')`. -/
theorem c6_censor_once_per_path (obj : JSVal) (p : String) (f : JSVal → String → JSVal)
    (hobj : isObjectLike obj = true) (hw : (parsePath p).contains "*" = false) :
    ∃ r, redactPaths obj [p] (.cfun f) = .ok (r, [(getValue obj (parsePath p), p)]) := by
  obtain ⟨b, r, hr⟩ := setValue_container_ok (parsePath p)
    (f (getValue obj (parsePath p)) p) hobj
  refine ⟨r, ?_⟩
  have hmem : ¬("*" ∈ parsePath p) := by simpa using hw
  simp [redactPaths, hmem, applyCensor, hr]

/-- Witness for C6 (amended) at the spec's example: one invocation with
`('hidden', 'secret')`. -/
theorem c6_censor_once_per_path_witness :
    ∃ r, redactPaths (.obj [("secret", .str "hidden")]) ["secret"]
        (.cfun (fun _ p => .str p)) = .ok (r, [(.str "hidden", "secret")]) :=
  c6_censor_once_per_path (.obj [("secret", .str "hidden")]) "secret"
    (fun _ p => .str p) rfl rfl

/-- Claim C7: with strict mode enabled, a `null`/absent or non-object input
short-circuits — it is passed through the serializer (or returned raw when
serialization is disabled) with no cloning, no censor call, and no dependence
on the configured paths. -/
theorem c7_strict_primitive (cfg : Config) (obj : JSVal)
    (hs : cfg.strict = true) (h : isNull obj = true ∨ typeofIsObject obj = false) :
    redact cfg obj = .ok (.val (match cfg.serialize with
        | .sfun f => f obj
        | .sfalse => obj), []) ∧
    ∀ ps, redact { cfg with paths := ps } obj = redact cfg obj := by
  have hcond : (cfg.strict && (isNull obj || !typeofIsObject obj)) = true := by
    rcases h with h | h <;> simp [hs, h]
  constructor
  · simp only [redact, hcond, if_true]
  · intro ps
    have hcond2 : ((({ cfg with paths := ps } : Config)).strict
        && (isNull obj || !typeofIsObject obj)) = true := hcond
    simp only [redact, hcond, hcond2, if_true]

/-- Witness for C7 at the spec's example: redacting the bare value `42` with
the default configuration returns the text `"42"`. -/
theorem c7_strict_primitive_witness :
    redact {} (.num 42) = .ok (.val (.str "42"), []) :=
  (c7_strict_primitive {} (.num 42) rfl (Or.inr rfl)).1

/-- Claim C8: a configured non-wildcard path that does not resolve in a
container input — a missing key at some segment, or an intermediate segment
holding a non-container — raises no error and leaves the output unmodified. -/
theorem c8_missing_path_tolerated (obj : JSVal) (p : String) (c : JSVal)
    (hobj : isObjectLike obj = true) (hw : (parsePath p).contains "*" = false)
    (hne : parsePath p ≠ []) (hmiss : specResolves obj (parsePath p) = false) :
    redactPaths obj [p] (.lit c) = .ok (obj, []) := by
  obtain ⟨b, hb⟩ := setValue_not_resolves (parsePath p) obj c hobj hne hw hmiss
  have hmem : ¬("*" ∈ parsePath p) := by simpa using hw
  simp [redactPaths, hmem, applyCensor, hb]

/-- Witness for C8 at the spec's example: `nonexistent.path` against
`{existing: 'v'}` leaves the structure untouched and raises no error. -/
theorem c8_missing_path_tolerated_witness :
    redactPaths (.obj [("existing", .str "v")]) ["nonexistent.path"]
      (.lit (.str "[REDACTED]")) = .ok (.obj [("existing", .str "v")], []) :=
  c8_missing_path_tolerated (.obj [("existing", .str "v")]) "nonexistent.path"
    (.str "[REDACTED]") rfl rfl (by decide) rfl

/-- Claim C9: the parser is one left-to-right pass — a dot outside brackets
ends a segment and empty segments are dropped, brackets delimit segments
whose optionally quoted content is unquoted with dots kept literal, and a
segment is the wildcard exactly when it is the whole string `*`. -/
theorem c9_parse_examples :
    parsePath "[\"weird-key\"][\"inner\"]" = ["weird-key", "inner"] ∧
    parsePath "a..b" = ["a", "b"] ∧
    parsePath "['a.b'].c" = ["a.b", "c"] ∧
    parsePath "[a.b]" = ["a.b"] ∧
    parsePath "a.*.b" = ["a", "*", "b"] ∧
    parsePath "a[*].b" = ["a", "*", "b"] ∧
    parsePath "a*b.c" = ["a*b", "c"] ∧
    "*" ∈ parsePath "a.*.b" ∧ ¬("*" ∈ parsePath "a*b.c") :=
  ⟨rfl, rfl, rfl, rfl, rfl, rfl, rfl, by decide, by decide⟩

/-- Claim C10: with strict mode disabled and at least one non-wildcard path
configured, redacting `null`, `undefined` or a non-container scalar throws a
TypeError — `setValue` applies the `in` operator to the non-object root —
although the same non-resolving path inside a container input is skipped
silently (claim C8). -/
theorem c10_nonstrict_scalar_throws (cfg : Config) (obj : JSVal)
    (hstrict : cfg.strict = false)
    (hobj : isNull obj = true ∨ typeofIsObject obj = false)
    (hp : ∃ p ∈ cfg.paths, (parsePath p).contains "*" = false) :
    redact cfg obj = .error .typeError := by
  have hol : isObjectLike obj = false := by
    rcases hobj with h | h
    · cases obj <;> simp_all [isNull, isObjectLike]
    · cases obj <;> simp_all [typeofIsObject, isObjectLike]
  have hcond : (cfg.strict && (isNull obj || !typeofIsObject obj)) = false := by
    simp [hstrict]
  have hrp : redactPaths (deepClone obj) cfg.paths cfg.censor = .error .typeError := by
    rw [deepClone_id]
    exact redactPaths_scalar_error hol cfg.paths cfg.censor hp
  simp only [redact, hcond, Bool.false_eq_true, if_false, hrp]

/-- Witness for C10: `slowRedact({paths: ['a'], strict: false})(42)` throws. -/
theorem c10_nonstrict_scalar_throws_witness :
    redact { paths := ["a"], strict := false } (.num 42) = .error .typeError :=
  c10_nonstrict_scalar_throws { paths := ["a"], strict := false } (.num 42) rfl
    (Or.inr rfl) ⟨"a", by simp, rfl⟩

end SlowRedact
